import Mathlib

/-!
Verification of the snutils sparse-matrix utilities (`snutils/mm.py` and
`snutils/nucleus.py`).

The coordinate table is modelled as a list of `Row` records (pandas DataFrame
columns `feature`, `barcode`, `count`); feature and barcode lists as
`List String`.  Files are modelled as lists of lines (`List String`);
identifiers are modelled as the raw line content (the pandas round trip
`read_csv(sep=TAB)` followed by joining the columns with a tab is the identity
on a line, and CSV quoting / numeric type inference of the pandas readers is
abstracted away).  Counts are natural numbers (the data model's non-negative
integers).  Every fallible Python operation (assertion failure, exception from
pandas) is modelled as `none` of an `Option` result.
-/

namespace Snutils

/-- One record of the coordinate table: a row of a pandas DataFrame with
columns `feature`, `barcode`, `count`. -/
structure Row where
  feature : String
  barcode : String
  count : Nat
deriving DecidableEq, Repr

/-- First-occurrence deduplication with an accumulator of already seen
elements; models `pandas.Series.unique` (and, for counting, the key set of
`value_counts` / of a Python dict built by insertion). -/
def uniqueFirstAux [DecidableEq α] (seen : List α) : List α → List α
  | [] => []
  | x :: xs => if x ∈ seen then uniqueFirstAux seen xs else x :: uniqueFirstAux (x :: seen) xs

/-- The distinct elements of a list in order of first occurrence. -/
def uniqueFirst [DecidableEq α] (l : List α) : List α := uniqueFirstAux [] l

/-- Models `pd.Series(l).value_counts()`: the number of occurrences of each
distinct element of `l`.  (pandas orders the keys by descending count; only
the multiset of counts matters here, through its maximum.) -/
def valueCounts (l : List String) : List Nat :=
  (uniqueFirst l).map (fun x => l.count x)

/-- Models `Series.max`: `none` for an empty series (pandas yields NaN). -/
def seriesMax : List Nat → Option Nat
  | [] => none
  | x :: xs => some (xs.foldl max x)

/-- Models the assertion expression `pd.Series(l).value_counts().max() == 1`
of `_validate_mm`; for an empty list the maximum is NaN and `NaN == 1` is
false. -/
def valueCountsMaxIsOne (l : List String) : Bool :=
  seriesMax (valueCounts l) == some 1

/-- Faithful model of `_validate_mm` (mm.py lines 6-17): the type and column
assertions (lines 7-12) hold by construction in this embedding; the remaining
four assertions appear in source order.  `false` models an `AssertionError`
being raised. -/
def _validate_mm (df : List Row) (features barcodes : List String) : Bool :=
  valueCountsMaxIsOne features && valueCountsMaxIsOne barcodes
    && df.all (fun r => decide (r.feature ∈ features))
    && df.all (fun r => decide (r.barcode ∈ barcodes))

/-- The ASCII digit character for `d < 10`; building block of Python's
decimal integer formatting. -/
def digitChar (d : Nat) : Char := Char.ofNat (48 + d)

/-- Big-endian decimal digit characters of `n`, empty for `n = 0`; `fuel`
bounds the recursion depth and any `fuel ≥ n` yields the digits of `n`. -/
def natCharsAux : Nat → Nat → List Char
  | 0, _ => []
  | fuel + 1, n => if n = 0 then [] else natCharsAux fuel (n / 10) ++ [digitChar (n % 10)]

/-- The decimal representation of `n` as characters; models Python's `str(n)`
(as used by f-strings and `DataFrame.to_csv` on integer columns). -/
def natChars (n : Nat) : List Char := if n = 0 then ['0'] else natCharsAux n n

/-- The numeric value of an ASCII digit character. -/
def digitVal (c : Char) : Nat := c.toNat - 48

/-- Models `int(token)` on a run of decimal digits (anything else fails). -/
def parseNat (s : String) : Option Nat :=
  match s.toList with
  | [] => none
  | c :: cs =>
    if (c :: cs).all Char.isDigit then
      some ((c :: cs).foldl (fun a x => 10 * a + digitVal x) 0)
    else none

/-- Whitespace tokenizer with the current token accumulated in reverse;
models Python's `str.split()` (and the field splitting performed by
`pandas.read_csv(delim_whitespace=True)`); only the space character occurs
as whitespace in the files handled here. -/
def tokenizeGo (acc : List Char) : List Char → List (List Char)
  | [] => if acc = [] then [] else [acc.reverse]
  | c :: cs =>
    if c = ' ' then
      if acc = [] then tokenizeGo [] cs else acc.reverse :: tokenizeGo [] cs
    else tokenizeGo (c :: acc) cs

/-- The whitespace-separated tokens of a line. -/
def splitTokens (s : String) : List String :=
  (tokenizeGo [] s.toList).map String.mk

/-- A data line of the matrix file as written by `write_mm`:
`feature_idx barcode_idx count`, space separated (`to_csv(sep=SPACE)` /
the `'{} {} {}'` dimensions format). -/
def renderEntry (i j c : Nat) : String :=
  String.mk (natChars i ++ ' ' :: (natChars j ++ ' ' :: natChars c))

/-- Parses a matrix data line into its three integer fields; any other
token count or a non-numeric token fails (models the errors raised by
`read_csv` column parsing and by `line.split()` unpacking / `int()`). -/
def parseEntryLine (s : String) : Option (Nat × Nat × Nat) :=
  match splitTokens s with
  | [a, b, c] =>
    match parseNat a, parseNat b, parseNat c with
    | some i, some j, some k => some (i, j, k)
    | _, _, _ => none
  | _ => none

/-- Runs a fallible per-element operation over a list, failing as soon as any
element fails; models a sequence of fallible per-line / per-entry steps in
the `Option` monad. -/
def mapAll (f : α → Option β) : List α → Option (List β)
  | [] => some []
  | x :: xs =>
    match f x, mapAll f xs with
    | some y, some ys => some (y :: ys)
    | _, _ => none

/-- Models a `pd.read_csv` call on a file given as its list of lines: pandas
raises `EmptyDataError` when no lines remain (`none`); otherwise the lines are
handed on for field-level processing.  For the features/barcodes files the
per-line processing of `read_mm`/`get_total_counts_mm` — split the line on
tabs, then re-join the fields with a tab — is the identity, so the identifier
list is exactly the list of lines. -/
def readIdLines (lines : List String) : Option (List String) :=
  match lines with
  | [] => none
  | l :: ls => some (l :: ls)

/-- Resolves the 1-based feature/barcode indices of one matrix entry to
identifier strings (the `Series.map` of the index dictionaries in `read_mm`,
and the `features[feature_idx]` lookups in `get_total_counts_mm`); an index
with no corresponding row is a failure (a `NaN` that makes the subsequent
validation fail, or a `KeyError`). -/
def resolveEntry (features barcodes : List String) : Nat × Nat × Nat → Option Row
  | (i + 1, j + 1, c) =>
    match features.get? i, barcodes.get? j with
    | some f, some b => some ⟨f, b, c⟩
    | _, _ => none
  | _ => none

/-- The matrix-file line that `write_mm` emits for a record: 1-based index of
the feature and of the barcode (`feature_to_idx` / `barcode_to_idx`, which on
a duplicate-free list is `indexOf + 1`) and the count. -/
def renderRow (features barcodes : List String) (r : Row) : String :=
  renderEntry (features.indexOf r.feature + 1) (barcodes.indexOf r.barcode + 1) r.count

/-- Faithful model of `write_mm` (mm.py lines 34-62), with the three emitted
files represented as lists of lines (matrix file, features file, barcodes
file, in the order of the returned paths; the path prefix only names the
files and is omitted).  The matrix file starts with the fixed two-line
header, then the dimensions line, then one line per record in table order;
the features/barcodes files hold one identifier per line in list order. -/
def write_mm (df : List Row) (features barcodes : List String) :
    Option (List String × List String × List String) :=
  if _validate_mm df features barcodes then
    some (["%%MatrixMarket matrix coordinate integer general", "%",
            renderEntry features.length barcodes.length df.length]
           ++ df.map (renderRow features barcodes),
          features, barcodes)
  else none

/-- Faithful model of `read_mm` (mm.py lines 20-31) over files as line lists:
`skiprows=3` drops the first three lines, and pandas raises `EmptyDataError`
when nothing remains (likewise for an empty features or barcodes file); every
remaining line must parse as `feature_idx barcode_idx count` with 1-based
indices that resolve through the identifier lists; the triple is validated
before being returned. -/
def read_mm (matrixLines featureLines barcodeLines : List String) :
    Option (List Row × List String × List String) :=
  (readIdLines (matrixLines.drop 3)).bind fun dataLines =>
  (readIdLines featureLines).bind fun features =>
  (readIdLines barcodeLines).bind fun barcodes =>
  (mapAll parseEntryLine dataLines).bind fun entries =>
  (mapAll (resolveEntry features barcodes) entries).bind fun df =>
  if _validate_mm df features barcodes then some (df, features, barcodes) else none

/-- Models `groupby(['barcode', 'feature']).sum().reset_index()` on the
coordinate table: one output record per distinct (barcode, feature) pair,
with the counts of the group summed.  pandas emits the groups sorted by key;
group order is modelled as first occurrence instead, and no claim concerns
the row order of the result. -/
def groupSum (recs : List Row) : List Row :=
  (uniqueFirst (recs.map fun r => (r.barcode, r.feature))).map fun p =>
    ⟨p.2, p.1,
      ((recs.filter fun r => decide (r.barcode = p.1) && decide (r.feature = p.2)).map
        Row.count).sum⟩

/-- The feature substitution `new_df.feature.map(old_feature_to_new_feature)`
applied to one record; the coverage assertion of `remap_features` guarantees
the feature is a key of the mapping, so the `getD` fallback is unreachable
(in pandas a missing key would become NaN and fail the re-validation). -/
def mapRowFeature (mapping : List (String × String)) (r : Row) : Row :=
  ⟨(List.lookup r.feature mapping).getD r.feature, r.barcode, r.count⟩

/-- Faithful model of `remap_features` (mm.py lines 103-115): validate, check
the remapping dict covers every feature of the feature list, substitute each
record's feature, aggregate duplicate (barcode, feature) pairs by summation,
recompute the feature list as the image of the old one with first-occurrence
deduplication (`Series.map(...).unique()`), re-validate, return. -/
def remap_features (df : List Row) (features barcodes : List String)
    (mapping : List (String × String)) : Option (List Row × List String × List String) :=
  if _validate_mm df features barcodes
      && features.all (fun f => (List.lookup f mapping).isSome) then
    let new_df := groupSum (df.map (mapRowFeature mapping))
    let new_features := uniqueFirst (features.map fun f => (List.lookup f mapping).getD f)
    if _validate_mm new_df new_features barcodes then some (new_df, new_features, barcodes)
    else none
  else none

/-- Models `set(a) == set(b)` on identifier lists. -/
def sameSet (a b : List String) : Bool :=
  a.all (fun x => decide (x ∈ b)) && b.all (fun x => decide (x ∈ a))

/-- Models `len(x)` for `x` the union of the element sets of the lists:
the number of distinct elements of the concatenation. -/
def distinctCount (l : List String) : Nat := (uniqueFirst l).length

/-- Faithful model of `mm_merge` (mm.py lines 118-143): three parallel lists
of tables, feature lists and barcode lists, which must have equal positive
length; a single triple is returned as is; otherwise every further feature
list must be set-equal to the first, the barcode lists together must hold as
many distinct barcodes as their summed lengths, and the concatenation of the
tables, the first feature list and the concatenation of the barcode lists
are returned.  No `_validate_mm` check is performed on any input triple. -/
def mm_merge (matrix_list : List (List Row)) (feature_list barcode_list : List (List String)) :
    Option (List Row × List String × List String) :=
  if matrix_list.length = feature_list.length ∧ matrix_list.length = barcode_list.length
      ∧ 0 < matrix_list.length then
    match matrix_list, feature_list, barcode_list with
    | [m], [f], [b] => some (m, f, b)
    | m :: ms, f :: fs, b :: bs =>
      if (fs.all fun fi => sameSet f fi)
          && (distinctCount ((b :: bs).flatten) == ((b :: bs).map List.length).sum) then
        some ((m :: ms).flatten, f, (b :: bs).flatten)
      else none
    | _, _, _ => none
  else none

/-- The dense grid `[[i, j] for i in keep_barcodes for j in keep_features]`
of `mm_to_wide`, as (barcode, feature) pairs in that order. -/
def pairGrid (keep_barcodes keep_features : List String) : List (String × String) :=
  (keep_barcodes.map fun b => keep_features.map fun f => (b, f)).flatten

/-- The rows the left merge of `mm_to_wide` produces for one grid cell: every
matching record of the filtered table, or a single fill row with count 0 when
none matches (`how='left'` plus `fillna(0)`, cast back to the integer dtype
of the input counts). -/
def cellRows (filtered : List Row) (b f : String) : List Row :=
  match filtered.filter fun r => decide (r.barcode = b) && decide (r.feature = f) with
  | [] => [⟨f, b, 0⟩]
  | m :: ms => m :: ms

/-- Faithful model of `mm_to_wide` (mm.py lines 146-158): validate, check the
keep lists are subsets of the full lists, left-join the dense grid of kept
(barcode, feature) pairs with the table restricted to kept features (and, as
in the source, to barcodes of the *full* barcode list), fill absent cells
with 0, and pivot.  The `None` defaults of the source merely copy the full
lists and are passed explicitly here.  The wide result is modelled as the
list of grid cells with their counts; `pivot` raises on a duplicated
(barcode, feature) index pair (`none`), which happens iff several records
match one cell. -/
def mm_to_wide (mtx : List Row) (features barcodes keep_features keep_barcodes : List String) :
    Option (List Row) :=
  if _validate_mm mtx features barcodes
      && keep_features.all (fun f => decide (f ∈ features))
      && keep_barcodes.all (fun b => decide (b ∈ barcodes)) then
    let filtered := mtx.filter fun r =>
      decide (r.feature ∈ keep_features) && decide (r.barcode ∈ barcodes)
    let joined := ((pairGrid keep_barcodes keep_features).map
      fun p => cellRows filtered p.1 p.2).flatten
    if (joined.map fun r => ((r.barcode, r.feature) : String × String)).Nodup then some joined
    else none
  else none

/-- Models `re.match('^%', line)`: does the line start with a percent sign. -/
def startsWithPercent (s : String) : Bool :=
  match s.toList with
  | c :: _ => c = '%'
  | [] => false

/-- The running totals `{v: 0 for v in ids}`: one key per distinct
identifier, initialised to 0, in insertion order. -/
def initTotals (ids : List String) : List (String × Nat) :=
  (uniqueFirst ids).map fun x => (x, 0)

/-- Python's `totals[key] += v` on a dict that already holds `key` (the keys
of the totals dict are exactly the distinct identifiers and every update key
is resolved from the identifier lists, so the missing-key branch of the
source — a `KeyError` — is unreachable and modelled as a no-op). -/
def bump (m : List (String × Nat)) (k : String) (v : Nat) : List (String × Nat) :=
  match m with
  | [] => []
  | (k', v') :: rest => if k' = k then (k', v' + v) :: rest else (k', v') :: bump rest k v

/-- Faithful model of `get_total_counts_mm` (mm.py lines 65-100): read the
two identifier files (empty file: `EmptyDataError`), then process the matrix
file line by line — lines starting with `%` are skipped, the first remaining
line (the dimensions header) is skipped, every other line is parsed as
`feature_idx barcode_idx count`, its indices are resolved through the
identifier lists, and the counts are accumulated onto totals initialised to
0 for every distinct identifier.  The source interleaves parsing with
accumulation in one streaming pass; in the `Option` model parsing all lines
first and then folding is the same function (a failing line aborts with no
result either way). -/
def get_total_counts_mm (matrixLines featureLines barcodeLines : List String) :
    Option (List (String × Nat) × List (String × Nat)) :=
  (readIdLines featureLines).bind fun features =>
  (readIdLines barcodeLines).bind fun barcodes =>
  (mapAll parseEntryLine ((matrixLines.filter fun l => !startsWithPercent l).drop 1)).bind
    fun entries =>
  (mapAll (resolveEntry features barcodes) entries).bind fun recs =>
  some (recs.foldl (fun acc r => bump acc r.feature r.count) (initTotals features),
        recs.foldl (fun acc r => bump acc r.barcode r.count) (initTotals barcodes))

/-- Python's `n.split('-')`: the `'-'`-separated fields of a string, empty
fields kept; `acc` holds the current field in reverse. -/
def splitFieldsGo (acc : List Char) : List Char → List String
  | [] => [String.mk acc.reverse]
  | c :: cs =>
    if c = '-' then String.mk acc.reverse :: splitFieldsGo [] cs
    else splitFieldsGo (c :: acc) cs

/-- The `'-'`-separated fields of an identifier string. -/
def splitFields (s : String) : List String := splitFieldsGo [] s.toList

/-- The four components of a nucleus identifier
`{sample}-{genome}-{modality}-{barcode}`. -/
structure Nucleus where
  sample : String
  genome : String
  modality : String
  barcode : String
deriving DecidableEq, Repr

/-- Faithful model of the single-string branch of `parse_nucleus`
(nucleus.py lines 72-94): the tuple unpacking
`sample, genome, modality, barcode = n.split('-')` succeeds exactly when the
split yields four fields and raises a `ValueError` (the ShapeError of the
design taxonomy) otherwise. -/
def parse_nucleus (n : String) : Option Nucleus :=
  match splitFields n with
  | [s, g, m, b] => some ⟨s, g, m, b⟩
  | _ => none

/-- The reconstruction `'{sample}-{genome}-{modality}-{barcode}'.format(**x)`
used by the nucleus conversion helpers of nucleus.py. -/
def formatNucleus (p : Nucleus) : String :=
  p.sample ++ ("-") ++ p.genome ++ ("-") ++ p.modality ++ ("-") ++ p.barcode

theorem mem_uniqueFirstAux [DecidableEq α] {x : α} :
    ∀ {l seen : List α}, x ∈ uniqueFirstAux seen l ↔ x ∈ l ∧ x ∉ seen := by
  intro l
  induction l with
  | nil => intro seen; simp [uniqueFirstAux]
  | cons y ys ih =>
    intro seen
    by_cases hy : y ∈ seen
    · rw [uniqueFirstAux, if_pos hy, ih]
      by_cases hxy : x = y
      · subst hxy; simp [hy]
      · simp [hxy]
    · rw [uniqueFirstAux, if_neg hy]
      by_cases hxy : x = y
      · subst hxy; simp [hy]
      · simp [hxy, ih]

theorem mem_uniqueFirst [DecidableEq α] {x : α} {l : List α} :
    x ∈ uniqueFirst l ↔ x ∈ l := by
  simp [uniqueFirst, mem_uniqueFirstAux]

theorem nodup_uniqueFirstAux [DecidableEq α] :
    ∀ {l seen : List α}, (uniqueFirstAux seen l).Nodup := by
  intro l
  induction l with
  | nil => intro seen; simp [uniqueFirstAux]
  | cons y ys ih =>
    intro seen
    by_cases hy : y ∈ seen
    · simpa [uniqueFirstAux, if_pos hy] using ih
    · simp only [uniqueFirstAux, if_neg hy, List.nodup_cons]
      refine ⟨fun hc => ?_, ih⟩
      exact (mem_uniqueFirstAux.mp hc).2 (List.mem_cons_self _ _)

theorem nodup_uniqueFirst [DecidableEq α] {l : List α} : (uniqueFirst l).Nodup :=
  nodup_uniqueFirstAux

theorem uniqueFirst_eq_nil_iff [DecidableEq α] {l : List α} :
    uniqueFirst l = [] ↔ l = [] := by
  cases l with
  | nil => simp [uniqueFirst, uniqueFirstAux]
  | cons x xs => simp [uniqueFirst, uniqueFirstAux]

theorem length_uniqueFirstAux_le [DecidableEq α] :
    ∀ {l seen : List α}, (uniqueFirstAux seen l).length ≤ l.length := by
  intro l
  induction l with
  | nil => intro seen; simp [uniqueFirstAux]
  | cons y ys ih =>
    intro seen
    by_cases hy : y ∈ seen
    · simp only [uniqueFirstAux, if_pos hy, List.length_cons]
      exact Nat.le_succ_of_le ih
    · simpa [uniqueFirstAux, if_neg hy] using ih

theorem length_uniqueFirstAux_of_nodup [DecidableEq α] :
    ∀ {l seen : List α}, l.Nodup → (∀ x ∈ l, x ∉ seen) →
      (uniqueFirstAux seen l).length = l.length := by
  intro l
  induction l with
  | nil => intro seen _ _; simp [uniqueFirstAux]
  | cons y ys ih =>
    intro seen hnd hdis
    have hy : y ∉ seen := hdis y (List.mem_cons_self _ _)
    simp only [uniqueFirstAux, if_neg hy, List.length_cons]
    have hnd' := (List.nodup_cons.mp hnd)
    congr 1
    refine ih hnd'.2 ?_
    intro x hx
    intro hc
    rcases List.mem_cons.mp hc with h | h
    · exact hnd'.1 (h ▸ hx)
    · exact hdis x (List.mem_cons_of_mem _ hx) h

theorem length_uniqueFirstAux_lt_of_seen [DecidableEq α] :
    ∀ {l seen : List α} {x : α}, x ∈ l → x ∈ seen →
      (uniqueFirstAux seen l).length < l.length := by
  intro l
  induction l with
  | nil => intro seen x hx _; cases hx
  | cons y ys ih =>
    intro seen x hx hseen
    by_cases hy : y ∈ seen
    · simp only [uniqueFirstAux, if_pos hy, List.length_cons]
      exact Nat.lt_succ_of_le length_uniqueFirstAux_le
    · have hxy : x ≠ y := fun h => hy (h ▸ hseen)
      have hx' : x ∈ ys := by
        rcases List.mem_cons.mp hx with h | h
        · exact absurd h hxy
        · exact h
      simp only [uniqueFirstAux, if_neg hy, List.length_cons]
      exact Nat.succ_lt_succ (ih hx' (List.mem_cons_of_mem _ hseen))

theorem length_uniqueFirstAux_lt_of_dup [DecidableEq α] :
    ∀ {l seen : List α}, ¬ l.Nodup → (uniqueFirstAux seen l).length < l.length := by
  intro l
  induction l with
  | nil => intro seen h; exact absurd List.nodup_nil h
  | cons y ys ih =>
    intro seen hnd
    by_cases hy : y ∈ seen
    · simp only [uniqueFirstAux, if_pos hy, List.length_cons]
      exact Nat.lt_succ_of_le length_uniqueFirstAux_le
    · simp only [uniqueFirstAux, if_neg hy, List.length_cons]
      by_cases hmem : y ∈ ys
      · exact Nat.succ_lt_succ
          (length_uniqueFirstAux_lt_of_seen hmem (List.mem_cons_self _ _))
      · by_cases hys : ys.Nodup
        · exact absurd (List.nodup_cons.mpr ⟨hmem, hys⟩) hnd
        · exact Nat.succ_lt_succ (ih hys)

theorem length_uniqueFirst_eq_iff [DecidableEq α] {l : List α} :
    (uniqueFirst l).length = l.length ↔ l.Nodup := by
  constructor
  · intro h
    by_contra hnd
    exact absurd h (Nat.ne_of_lt (length_uniqueFirstAux_lt_of_dup hnd))
  · intro h
    exact length_uniqueFirstAux_of_nodup h (by simp)

theorem foldl_max_init_le : ∀ (xs : List Nat) (x : Nat), x ≤ xs.foldl max x := by
  intro xs
  induction xs with
  | nil => intro x; simp
  | cons y ys ih =>
    intro x
    exact le_trans (Nat.le_max_left x y) (ih (max x y))

theorem foldl_max_mem_le : ∀ (xs : List Nat) (x a : Nat), a ∈ xs → a ≤ xs.foldl max x := by
  intro xs
  induction xs with
  | nil => intro _ _ h; cases h
  | cons y ys ih =>
    intro x a ha
    rcases List.mem_cons.mp ha with rfl | h
    · exact le_trans (Nat.le_max_right x a) (foldl_max_init_le ys (max x a))
    · exact ih (max x y) a h

theorem foldl_max_le : ∀ (xs : List Nat) (x n : Nat),
    x ≤ n → (∀ a ∈ xs, a ≤ n) → xs.foldl max x ≤ n := by
  intro xs
  induction xs with
  | nil => intro x n hx _; simpa using hx
  | cons y ys ih =>
    intro x n hx hall
    refine ih (max x y) n (max_le hx (hall y (List.mem_cons_self _ _))) ?_
    exact fun a ha => hall a (List.mem_cons_of_mem _ ha)

theorem valueCountsMaxIsOne_iff {l : List String} :
    valueCountsMaxIsOne l = true ↔ l ≠ [] ∧ l.Nodup := by
  cases l with
  | nil => simp [valueCountsMaxIsOne, valueCounts, uniqueFirst, uniqueFirstAux, seriesMax]
  | cons y ys =>
    have hys : uniqueFirst (y :: ys) = y :: uniqueFirstAux [y] ys := by
      simp [uniqueFirst, uniqueFirstAux]
    rw [valueCountsMaxIsOne, valueCounts, hys, List.map_cons, seriesMax, beq_iff_eq,
      Option.some_inj]
    constructor
    · intro hmax
      refine ⟨List.cons_ne_nil _ _, List.nodup_iff_count_le_one.mpr fun a => ?_⟩
      by_cases ha : a ∈ y :: ys
      · have hmem : (y :: ys).count a ∈ (y :: ys).count y ::
            (uniqueFirstAux [y] ys).map (fun x => (y :: ys).count x) := by
          have : a ∈ y :: uniqueFirstAux [y] ys := by
            rw [← hys]
            exact mem_uniqueFirst.mpr ha
          rcases List.mem_cons.mp this with rfl | h
          · exact List.mem_cons_self _ _
          · exact List.mem_cons_of_mem _ (List.mem_map_of_mem _ h)
        rcases List.mem_cons.mp hmem with heq | h
        · rw [heq, ← hmax]
          exact foldl_max_init_le _ _
        · rw [← hmax]
          exact foldl_max_mem_le _ _ _ h
      · simp [List.count_eq_zero_of_not_mem ha]
    · intro ⟨_, hnd⟩
      have hcount : ∀ a ∈ y :: ys, (y :: ys).count a = 1 :=
        List.nodup_iff_count_eq_one.mp hnd
      have hy1 : (y :: ys).count y = 1 := hcount y (List.mem_cons_self _ _)
      refine le_antisymm ?_ ?_
      · refine foldl_max_le _ _ _ (le_of_eq hy1) ?_
        intro a ha
        rcases List.mem_map.mp ha with ⟨x, hx, rfl⟩
        have hxmem : x ∈ y :: ys := by
          have : x ∈ y :: uniqueFirstAux [y] ys := List.mem_cons_of_mem _ hx
          rw [← hys] at this
          exact mem_uniqueFirst.mp this
        exact le_of_eq (hcount x hxmem)
      · calc 1 = (y :: ys).count y := hy1.symm
          _ ≤ _ := foldl_max_init_le _ _

/-- `_validate_mm` succeeds exactly when both lists are nonempty and
duplicate-free and every record references listed identifiers. -/
theorem validate_iff {df : List Row} {features barcodes : List String} :
    _validate_mm df features barcodes = true ↔
      features ≠ [] ∧ features.Nodup ∧ barcodes ≠ [] ∧ barcodes.Nodup ∧
        (∀ r ∈ df, r.feature ∈ features) ∧ (∀ r ∈ df, r.barcode ∈ barcodes) := by
  simp only [_validate_mm, Bool.and_eq_true, valueCountsMaxIsOne_iff, List.all_eq_true,
    decide_eq_true_eq]
  tauto

theorem digitChar_toNat {d : Nat} (h : d < 10) : (digitChar d).toNat = 48 + d := by
  interval_cases d <;> decide

theorem digitChar_isDigit {d : Nat} (h : d < 10) : (digitChar d).isDigit = true := by
  interval_cases d <;> decide

theorem digitChar_ne_space {d : Nat} (h : d < 10) : digitChar d ≠ ' ' := by
  interval_cases d <;> decide

theorem natCharsAux_all_digit :
    ∀ (fuel n : Nat), ∀ c ∈ natCharsAux fuel n, c.isDigit = true := by
  intro fuel
  induction fuel with
  | zero => intro n c hc; cases hc
  | succ fuel ih =>
    intro n c hc
    by_cases hn : n = 0
    · simp [natCharsAux, hn] at hc
    · rw [natCharsAux, if_neg hn] at hc
      rcases List.mem_append.mp hc with h | h
      · exact ih _ c h
      · rw [List.mem_singleton] at h
        subst h
        exact digitChar_isDigit (Nat.mod_lt _ (by norm_num))

theorem natCharsAux_ne_nil {fuel n : Nat} (h0 : 0 < n) (hf : n ≤ fuel) :
    natCharsAux fuel n ≠ [] := by
  cases fuel with
  | zero => omega
  | succ fuel =>
    rw [natCharsAux, if_neg (Nat.pos_iff_ne_zero.mp h0)]
    simp

theorem natCharsAux_foldl :
    ∀ (fuel n acc : Nat), n ≤ fuel →
      (natCharsAux fuel n).foldl (fun a x => 10 * a + digitVal x) acc
        = acc * 10 ^ (natCharsAux fuel n).length + n := by
  intro fuel
  induction fuel with
  | zero =>
    intro n acc h
    have hn : n = 0 := Nat.le_zero.mp h
    subst hn
    simp [natCharsAux]
  | succ fuel ih =>
    intro n acc h
    by_cases hn : n = 0
    · subst hn; simp [natCharsAux]
    · have hdiv : n / 10 < n := Nat.div_lt_self (Nat.pos_of_ne_zero hn) (by norm_num)
      have hle : n / 10 ≤ fuel := by omega
      have hmod : digitVal (digitChar (n % 10)) = n % 10 := by
        rw [digitVal, digitChar_toNat (Nat.mod_lt _ (by norm_num))]
        omega
      rw [natCharsAux, if_neg hn, List.foldl_append, ih (n / 10) acc hle]
      simp only [List.foldl_cons, List.foldl_nil, List.length_append, List.length_cons,
        List.length_nil, hmod]
      set k := (natCharsAux fuel (n / 10)).length with hk
      rw [pow_succ]
      conv_rhs => rw [← Nat.div_add_mod n 10]
      ring

theorem natChars_ne_nil (n : Nat) : natChars n ≠ [] := by
  by_cases hn : n = 0
  · simp [natChars, hn]
  · rw [natChars, if_neg hn]
    exact natCharsAux_ne_nil (Nat.pos_of_ne_zero hn) le_rfl

theorem natChars_all_digit (n : Nat) : ∀ c ∈ natChars n, c.isDigit = true := by
  by_cases hn : n = 0
  · subst hn; intro c hc; simp [natChars] at hc; subst hc; decide
  · rw [natChars, if_neg hn]
    exact natCharsAux_all_digit n n

theorem natChars_no_space (n : Nat) : ∀ c ∈ natChars n, c ≠ ' ' := by
  intro c hc heq
  have := natChars_all_digit n c hc
  rw [heq] at this
  exact absurd this (by decide)

theorem parseNat_mk_natChars (n : Nat) : parseNat (String.mk (natChars n)) = some n := by
  by_cases hn : n = 0
  · subst hn; decide
  · have hchars : (String.mk (natChars n)).toList = natCharsAux n n := by
      rw [natChars, if_neg hn]; rfl
    rcases hcons : natCharsAux n n with _ | ⟨c, cs⟩
    · exact absurd hcons (natCharsAux_ne_nil (Nat.pos_of_ne_zero hn) le_rfl)
    · rw [parseNat, hchars, hcons]
      have hall : (c :: cs).all Char.isDigit = true := by
        rw [List.all_eq_true]
        intro x hx
        exact natCharsAux_all_digit n n x (hcons ▸ hx)
      have hfold := natCharsAux_foldl n n 0 le_rfl
      rw [hcons] at hfold
      simp only [Nat.zero_mul, Nat.zero_add] at hfold
      simp [hall, hfold]

theorem tokenizeGo_nil (acc : List Char) :
    tokenizeGo acc [] = if acc = [] then [] else [acc.reverse] := rfl

theorem tokenizeGo_space (acc cs : List Char) :
    tokenizeGo acc (' ' :: cs)
      = if acc = [] then tokenizeGo [] cs else acc.reverse :: tokenizeGo [] cs := by
  rw [tokenizeGo]
  simp

theorem tokenizeGo_nonspace {c : Char} (h : c ≠ ' ') (acc cs : List Char) :
    tokenizeGo acc (c :: cs) = tokenizeGo (c :: acc) cs := by
  rw [tokenizeGo, if_neg h]

theorem tokenizeGo_append_space {t rest : List Char} (ht : ∀ c ∈ t, c ≠ ' ') :
    ∀ acc, tokenizeGo acc (t ++ ' ' :: rest)
      = if acc.reverse ++ t = [] then tokenizeGo [] rest
        else (acc.reverse ++ t) :: tokenizeGo [] rest := by
  induction t with
  | nil =>
    intro acc
    rw [List.nil_append, tokenizeGo_space, List.append_nil]
    by_cases ha : acc = []
    · subst ha; simp
    · rw [if_neg ha, if_neg (by simpa using ha)]
  | cons ch t' ih =>
    intro acc
    have hch : ch ≠ ' ' := ht ch (List.mem_cons_self _ _)
    rw [List.cons_append, tokenizeGo_nonspace hch,
      ih (fun c hc => ht c (List.mem_cons_of_mem _ hc)) (ch :: acc)]
    have hne : (ch :: acc).reverse ++ t' ≠ [] := by simp
    have hne' : acc.reverse ++ ch :: t' ≠ [] := by simp
    rw [if_neg hne, if_neg hne']
    simp [List.reverse_cons, List.append_assoc]

theorem tokenizeGo_no_space {t : List Char} (ht : ∀ c ∈ t, c ≠ ' ') :
    ∀ acc, tokenizeGo acc t = if acc.reverse ++ t = [] then [] else [acc.reverse ++ t] := by
  induction t with
  | nil =>
    intro acc
    rw [tokenizeGo_nil, List.append_nil]
    by_cases ha : acc = []
    · subst ha; simp
    · rw [if_neg ha, if_neg (by simpa using ha)]
  | cons ch t' ih =>
    intro acc
    have hch : ch ≠ ' ' := ht ch (List.mem_cons_self _ _)
    rw [tokenizeGo_nonspace hch,
      ih (fun c hc => ht c (List.mem_cons_of_mem _ hc)) (ch :: acc)]
    have hne : (ch :: acc).reverse ++ t' ≠ [] := by simp
    have hne' : acc.reverse ++ ch :: t' ≠ [] := by simp
    rw [if_neg hne, if_neg hne']
    simp [List.reverse_cons, List.append_assoc]

theorem tokenizeGo_token_cons {t rest : List Char} (h1 : t ≠ []) (h2 : ∀ c ∈ t, c ≠ ' ') :
    tokenizeGo [] (t ++ ' ' :: rest) = t :: tokenizeGo [] rest := by
  rw [tokenizeGo_append_space h2 []]
  simp [h1]

theorem tokenizeGo_single {t : List Char} (h1 : t ≠ []) (h2 : ∀ c ∈ t, c ≠ ' ') :
    tokenizeGo [] t = [t] := by
  rw [tokenizeGo_no_space h2 []]
  simp [h1]

theorem parseEntryLine_renderEntry (i j c : Nat) :
    parseEntryLine (renderEntry i j c) = some (i, j, c) := by
  have htoks : splitTokens (renderEntry i j c) =
      [String.mk (natChars i), String.mk (natChars j), String.mk (natChars c)] := by
    rw [splitTokens]
    have hlist : (renderEntry i j c).toList
        = natChars i ++ ' ' :: (natChars j ++ ' ' :: natChars c) := rfl
    rw [hlist, tokenizeGo_token_cons (natChars_ne_nil i) (natChars_no_space i),
      tokenizeGo_token_cons (natChars_ne_nil j) (natChars_no_space j),
      tokenizeGo_single (natChars_ne_nil c) (natChars_no_space c)]
    rfl
  rw [parseEntryLine, htoks]
  simp only [parseNat_mk_natChars]

theorem mapAll_map {f : β → Option γ} {g : α → β} {h : α → γ} :
    ∀ {l : List α}, (∀ x ∈ l, f (g x) = some (h x)) → mapAll f (l.map g) = some (l.map h) := by
  intro l
  induction l with
  | nil => intro _; rfl
  | cons x xs ih =>
    intro H
    rw [List.map_cons, List.map_cons, mapAll, H x (List.mem_cons_self _ _),
      ih fun y hy => H y (List.mem_cons_of_mem _ hy)]

theorem get?_indexOf {l : List String} {a : String} (h : a ∈ l) :
    l.get? (l.indexOf a) = some a := by
  induction l with
  | nil => cases h
  | cons x xs ih =>
    rcases List.mem_cons.mp h with rfl | hmem
    · simp
    · by_cases hax : a = x
      · subst hax; simp
      · rw [List.indexOf_cons_ne _ (fun hc => hax hc.symm), List.get?_cons_succ]
        exact ih hmem

theorem parseEntryLine_renderRow (features barcodes : List String) (r : Row) :
    parseEntryLine (renderRow features barcodes r)
      = some (features.indexOf r.feature + 1, barcodes.indexOf r.barcode + 1, r.count) :=
  parseEntryLine_renderEntry _ _ _

theorem resolveEntry_renderRow {df : List Row} {features barcodes : List String}
    (hv : _validate_mm df features barcodes = true) {r : Row} (hr : r ∈ df) :
    resolveEntry features barcodes
      (features.indexOf r.feature + 1, barcodes.indexOf r.barcode + 1, r.count) = some r := by
  obtain ⟨-, -, -, -, hf, hb⟩ := validate_iff.mp hv
  rw [resolveEntry, get?_indexOf (hf r hr), get?_indexOf (hb r hr)]

/-- Claim C1 (corrected): for every valid triple whose table holds at least
one record, writing it with `write_mm` and reading the emitted three files
back with `read_mm` returns exactly the original triple — the same list of
(feature, barcode, count) records (hence the same multiset), the same
feature list and the same barcode list.  The nonemptiness hypothesis is
forced by the counterexample `write_read_empty_table_cex`. -/
theorem write_read_roundtrip {df : List Row} {features barcodes : List String}
    (hv : _validate_mm df features barcodes = true) (hne : df ≠ []) :
    (write_mm df features barcodes).bind (fun w => read_mm w.1 w.2.1 w.2.2)
      = some (df, features, barcodes) := by
  rw [write_mm, if_pos hv, Option.some_bind]
  obtain ⟨hfe, -, hbe, -, -, -⟩ := validate_iff.mp hv
  rw [read_mm]
  have hdrop : (["%%MatrixMarket matrix coordinate integer general", "%",
      renderEntry features.length barcodes.length df.length]
      ++ df.map (renderRow features barcodes)).drop 3 = df.map (renderRow features barcodes) := rfl
  rw [hdrop]
  obtain ⟨r0, rs, rfl⟩ : ∃ r0 rs, df = r0 :: rs := by
    cases df with
    | nil => exact absurd rfl hne
    | cons r0 rs => exact ⟨r0, rs, rfl⟩
  obtain ⟨f0, fs, rfl⟩ : ∃ f0 fs, features = f0 :: fs := by
    cases features with
    | nil => exact absurd rfl hfe
    | cons f0 fs => exact ⟨f0, fs, rfl⟩
  obtain ⟨b0, bs, rfl⟩ : ∃ b0 bs, barcodes = b0 :: bs := by
    cases barcodes with
    | nil => exact absurd rfl hbe
    | cons b0 bs => exact ⟨b0, bs, rfl⟩
  rw [List.map_cons, readIdLines, Option.some_bind, readIdLines, Option.some_bind,
    readIdLines, Option.some_bind, ← List.map_cons]
  have h1 : mapAll parseEntryLine (List.map (renderRow (f0 :: fs) (b0 :: bs)) (r0 :: rs))
      = some ((r0 :: rs).map (fun r => ((f0 :: fs).indexOf r.feature + 1,
          (b0 :: bs).indexOf r.barcode + 1, r.count))) :=
    mapAll_map (fun r _ => parseEntryLine_renderRow _ _ _)
  rw [h1, Option.some_bind]
  have h2 : mapAll (resolveEntry (f0 :: fs) (b0 :: bs))
      ((r0 :: rs).map (fun r => ((f0 :: fs).indexOf r.feature + 1,
          (b0 :: bs).indexOf r.barcode + 1, r.count)))
      = some ((r0 :: rs).map id) :=
    mapAll_map (fun r hr => resolveEntry_renderRow hv hr)
  rw [h2, Option.some_bind, List.map_id, if_pos hv]

theorem write_read_roundtrip_witness :
    _validate_mm [⟨"F1", "b1", 5⟩] ["F1"] ["b1"] = true
      ∧ ([⟨"F1", "b1", 5⟩] : List Row) ≠ []
      ∧ (write_mm [⟨"F1", "b1", 5⟩] ["F1"] ["b1"]).bind (fun w => read_mm w.1 w.2.1 w.2.2)
          = some ([⟨"F1", "b1", 5⟩], ["F1"], ["b1"]) :=
  ⟨by decide, by decide, write_read_roundtrip (by decide) (by decide)⟩

/-- Claim C1 counterexample: the triple with an empty table, feature list
["f"] and barcode list ["b"] is valid and `write_mm` emits its three files,
but reading the written matrix file back fails — after `skiprows=3` no data
lines remain and pandas raises `EmptyDataError` — so `Read(Write(...))` does
not reproduce the triple. -/
theorem write_read_empty_table_cex :
    _validate_mm [] ["f"] ["b"] = true
      ∧ write_mm [] ["f"] ["b"]
          = some (["%%MatrixMarket matrix coordinate integer general", "%", "1 1 0"],
              ["f"], ["b"])
      ∧ read_mm ["%%MatrixMarket matrix coordinate integer general", "%", "1 1 0"]
          ["f"] ["b"] = none := by
  decide

/-- Claim C2 (corrected): `_validate_mm` succeeds (returns true) iff the four
invariant clauses hold AND both identifier lists are nonempty; on an empty
feature or barcode list the duplicate check `value_counts().max() == 1`
compares NaN with 1 and the assertion fails even though all four clauses
hold (see `validate_empty_features_cex`).  `false` models the raised
`AssertionError`. -/
theorem validate_iff_clauses (df : List Row) (features barcodes : List String) :
    _validate_mm df features barcodes = true ↔
      ((∀ r ∈ df, r.feature ∈ features) ∧ (∀ r ∈ df, r.barcode ∈ barcodes)
        ∧ features.Nodup ∧ barcodes.Nodup ∧ features ≠ [] ∧ barcodes ≠ []) := by
  rw [validate_iff]
  tauto

/-- Claim C2 counterexample: for the triple (table = [], features = [],
barcodes = ["b"]) all four invariant clauses hold — both lists are
duplicate-free and the empty table references nothing — yet `_validate_mm`
raises (returns false) instead of succeeding. -/
theorem validate_empty_features_cex :
    _validate_mm [] [] ["b"] = false
      ∧ (∀ r ∈ ([] : List Row), r.feature ∈ ([] : List String))
      ∧ (∀ r ∈ ([] : List Row), r.barcode ∈ (["b"] : List String))
      ∧ ([] : List String).Nodup ∧ (["b"] : List String).Nodup := by
  refine ⟨by decide, by simp, by simp, by simp, by simp⟩

/-- Claim C3 (corrected): `write_mm`, `remap_features` and `mm_to_wide` check
the validity invariant on the triple they receive and fail on every invalid
triple, and `read_mm` validates the triple it constructs before returning
it; but `mm_merge` performs no validity check on its input triples and can
return a result built from an invalid triple (see
`merge_no_validation_cex`). -/
theorem ops_validate_on_entry (df : List Row) (features barcodes : List String)
    (mapping : List (String × String)) (kf kb m fl bl : List String)
    (t : List Row) (f2 b2 : List String)
    (hv : _validate_mm df features barcodes = false)
    (hr : read_mm m fl bl = some (t, f2, b2)) :
    write_mm df features barcodes = none
      ∧ remap_features df features barcodes mapping = none
      ∧ mm_to_wide df features barcodes kf kb = none
      ∧ _validate_mm t f2 b2 = true := by
  refine ⟨?_, ?_, ?_, ?_⟩
  · rw [write_mm, if_neg]
    simp [hv]
  · rw [remap_features, if_neg]
    simp [hv]
  · rw [mm_to_wide, if_neg]
    simp [hv]
  · rw [read_mm] at hr
    simp only [Option.bind_eq_some] at hr
    obtain ⟨dl, -, fe, -, be, -, en, -, dfx, -, hif⟩ := hr
    by_cases hvv : _validate_mm dfx fe be = true
    · rw [if_pos hvv] at hif
      rw [Option.some_inj] at hif
      obtain ⟨rfl, rfl, rfl⟩ := Prod.mk.injEq .. ▸ hif
      exact hvv
    · rw [if_neg hvv] at hif
      cases hif

theorem ops_validate_on_entry_witness :
    _validate_mm [] ["x", "x"] ["y"] = false
      ∧ read_mm ["%%MatrixMarket matrix coordinate integer general", "%", "1 1 0", "1 1 7"]
          ["g"] ["c"] = some ([⟨"g", "c", 7⟩], ["g"], ["c"])
      ∧ write_mm [] ["x", "x"] ["y"] = none
      ∧ remap_features [] ["x", "x"] ["y"] [] = none
      ∧ mm_to_wide [] ["x", "x"] ["y"] [] [] = none
      ∧ _validate_mm [⟨"g", "c", 7⟩] ["g"] ["c"] = true := by
  have h := ops_validate_on_entry [] ["x", "x"] ["y"] [] [] []
    ["%%MatrixMarket matrix coordinate integer general", "%", "1 1 0", "1 1 7"]
    ["g"] ["c"] [⟨"g", "c", 7⟩] ["g"] ["c"] (by decide) (by decide)
  exact ⟨by decide, by decide, h.1, h.2.1, h.2.2.1, h.2.2.2⟩

/-- Claim C3 counterexample: the triple ([], ["f","f"], ["b"]) violates the
no-duplicate-features clause of the validity invariant, yet `mm_merge`
proceeds and returns a result instead of failing. -/
theorem merge_no_validation_cex :
    _validate_mm [] ["f", "f"] ["b"] = false
      ∧ mm_merge [[]] [["f", "f"]] [["b"]] = some ([], ["f", "f"], ["b"]) := by
  decide

/-- Claim C7: `mm_merge` on a single (table, features, barcodes) triple
returns that triple unchanged. -/
theorem mm_merge_singleton_identity (m : List Row) (f b : List String) :
    mm_merge [m] [f] [b] = some (m, f, b) := rfl

/-- Claim C9: `parse_nucleus` fails exactly when the number of
`'-'`-separated fields differs from 4, and otherwise returns the four fields
sample, genome, modality, barcode in order; parsing `S1-hg38-ATAC-AACCGG`
and reconstructing the identifier from the fields returns the original
string. -/
theorem parse_nucleus_spec :
    (∀ n : String, parse_nucleus n = none ↔ (splitFields n).length ≠ 4)
      ∧ (∀ n p, parse_nucleus n = some p →
          splitFields n = [p.sample, p.genome, p.modality, p.barcode])
      ∧ parse_nucleus ("S1-hg38-ATAC-AACCGG") = some ⟨"S1", "hg38", "ATAC", "AACCGG"⟩
      ∧ formatNucleus ⟨"S1", "hg38", "ATAC", "AACCGG"⟩ = "S1-hg38-ATAC-AACCGG" := by
  refine ⟨?_, ?_, by decide, by decide⟩
  · intro n
    rcases h : splitFields n with _ | ⟨a, _ | ⟨b, _ | ⟨c, _ | ⟨d, _ | ⟨e, t⟩⟩⟩⟩⟩ <;>
      simp [parse_nucleus, h]
  · intro n p hp
    rcases h : splitFields n with _ | ⟨a, _ | ⟨b, _ | ⟨c, _ | ⟨d, _ | ⟨e, t⟩⟩⟩⟩⟩ <;>
      (rw [parse_nucleus, h] at hp; cases hp) <;> rfl

theorem parse_nucleus_spec_witness :
    parse_nucleus ("S1-hg38") = none ∧ (splitFields ("S1-hg38")).length ≠ 4 :=
  ⟨(parse_nucleus_spec.1 ("S1-hg38")).mpr (by decide), by decide⟩

theorem pairGrid_cons (b : String) (bs kf : List String) :
    pairGrid (b :: bs) kf = (kf.map fun f => (b, f)) ++ pairGrid bs kf := rfl

theorem pairGrid_mem :
    ∀ {kb kf : List String} {p : String × String},
      p ∈ pairGrid kb kf ↔ p.1 ∈ kb ∧ p.2 ∈ kf := by
  intro kb
  induction kb with
  | nil => intro kf p; simp [pairGrid]
  | cons b bs ih =>
    intro kf p
    rcases p with ⟨x, y⟩
    rw [pairGrid_cons, List.mem_append, ih]
    simp only [List.mem_map, List.mem_cons, Prod.mk.injEq]
    constructor
    · rintro (⟨f, hf, rfl, rfl⟩ | ⟨h1, h2⟩)
      · exact ⟨Or.inl rfl, hf⟩
      · exact ⟨Or.inr h1, h2⟩
    · rintro ⟨rfl | h1, h2⟩
      · exact Or.inl ⟨y, h2, rfl, rfl⟩
      · exact Or.inr ⟨h1, h2⟩

theorem pairGrid_nodup :
    ∀ {kb kf : List String}, kb.Nodup → kf.Nodup → (pairGrid kb kf).Nodup := by
  intro kb
  induction kb with
  | nil => intro kf _ _; simp [pairGrid]
  | cons b bs ih =>
    intro kf hnb hnf
    rw [List.nodup_cons] at hnb
    rw [pairGrid_cons, List.nodup_append]
    refine ⟨hnf.map fun a1 a2 h => congrArg Prod.snd h, ih hnb.2 hnf, ?_⟩
    intro x hx1 hx2
    obtain ⟨f, -, rfl⟩ := List.mem_map.mp hx1
    exact hnb.1 (pairGrid_mem.mp hx2).1

theorem flatten_map_singleton (l : List α) (g : α → β) :
    (l.map fun x => [g x]).flatten = l.map g := by
  induction l with
  | nil => rfl
  | cons x xs ih => simp [ih]

theorem exists_two_of_two_le_countP {p : α → Bool} :
    ∀ {l : List α}, 2 ≤ l.countP p →
      ∃ u x v y w, l = u ++ x :: v ++ y :: w ∧ p x = true ∧ p y = true := by
  intro l
  induction l with
  | nil => intro h; simp [List.countP_nil] at h
  | cons a t ih =>
    intro h2
    by_cases hp : p a = true
    · rw [List.countP_cons_of_pos _ _ hp] at h2
      obtain ⟨x, hx, hpx⟩ : ∃ x ∈ t, p x = true := List.countP_pos_iff.mp (by omega)
      obtain ⟨v, w, rfl⟩ := List.append_of_mem hx
      exact ⟨[], a, v, x, w, rfl, hp, hpx⟩
    · rw [List.countP_cons_of_neg _ _ hp] at h2
      obtain ⟨u, x, v, y, w, rfl, hpx, hpy⟩ := ih h2
      exact ⟨a :: u, x, v, y, w, rfl, hpx, hpy⟩

theorem not_nodup_of_two_le_countP {l : List α} {p : α → Bool} (h2 : 2 ≤ l.countP p)
    (huniq : ∀ x y, p x = true → p y = true → x = y) : ¬ l.Nodup := by
  obtain ⟨u, x, v, y, w, rfl, hx, hy⟩ := exists_two_of_two_le_countP h2
  obtain rfl : x = y := huniq x y hx hy
  intro hnd
  have hdisj := (List.nodup_append.mp hnd).2.2
  exact hdisj (List.mem_append_right _ (List.mem_cons_self _ _)) (List.mem_cons_self _ _)

theorem filter_keep_pair {mtx : List Row} {features barcodes kf : List String}
    (hv : _validate_mm mtx features barcodes = true) (b0 : String) {f0 : String}
    (hf0 : f0 ∈ kf) :
    ((mtx.filter fun r => decide (r.feature ∈ kf) && decide (r.barcode ∈ barcodes)).filter
        fun r => decide (r.barcode = b0) && decide (r.feature = f0))
      = mtx.filter fun r => decide (r.barcode = b0) && decide (r.feature = f0) := by
  rw [List.filter_filter]
  refine List.filter_congr ?_
  intro r hr
  obtain ⟨-, -, -, -, -, hb⟩ := validate_iff.mp hv
  have hbb := hb r hr
  by_cases h1 : r.barcode = b0
  · by_cases h2 : r.feature = f0
    · simp [h1, h2, hf0, h1 ▸ hbb]
    · simp [h2]
  · simp [h1]

theorem cellRows_of_filter_eq {filtered mtxf : List Row} {b0 f0 : String}
    (hff : (filtered.filter fun r => decide (r.barcode = b0) && decide (r.feature = f0)) = mtxf)
    (hne : mtxf ≠ []) : cellRows filtered b0 f0 = mtxf := by
  rw [cellRows, hff]
  cases mtxf with
  | nil => exact absurd rfl hne
  | cons m ms => rfl

/-- Claim C10: on a valid triple whose table holds two or more records with
the same (feature, barcode) pair, where that feature is kept and that
barcode is kept, `mm_to_wide` fails — the final `pivot` raises on duplicate
(barcode, feature) index pairs — instead of summing the duplicates or
choosing one of them, although such duplicate records are valid input. -/
theorem mm_to_wide_duplicate_fails (mtx : List Row) (features barcodes kf kb : List String)
    (f0 b0 : String)
    (hv : _validate_mm mtx features barcodes = true)
    (hkf : ∀ f ∈ kf, f ∈ features) (hkb : ∀ b ∈ kb, b ∈ barcodes)
    (hf0 : f0 ∈ kf) (hb0 : b0 ∈ kb)
    (hdup : 2 ≤ (mtx.filter fun r =>
      decide (r.barcode = b0) && decide (r.feature = f0)).length) :
    mm_to_wide mtx features barcodes kf kb = none := by
  have hcond : (_validate_mm mtx features barcodes
      && kf.all (fun f => decide (f ∈ features))
      && kb.all (fun b => decide (b ∈ barcodes))) = true := by
    simp only [Bool.and_eq_true, List.all_eq_true, decide_eq_true_eq]
    exact ⟨⟨hv, hkf⟩, hkb⟩
  have hff := filter_keep_pair hv b0 hf0
  have hne : (mtx.filter fun r =>
      decide (r.barcode = b0) && decide (r.feature = f0)) ≠ [] := by
    intro h
    rw [h] at hdup
    simp at hdup
  have hcell := cellRows_of_filter_eq hff hne
  have hcount : 2 ≤ ((((pairGrid kb kf).map fun p =>
      cellRows (mtx.filter fun r =>
        decide (r.feature ∈ kf) && decide (r.barcode ∈ barcodes)) p.1 p.2).flatten.map
      fun r => ((r.barcode, r.feature) : String × String)).countP
        fun q => decide (q = (b0, f0))) := by
    rw [List.countP_map, List.countP_flatten, List.map_map]
    have hmem : ((b0, f0) : String × String) ∈ pairGrid kb kf := pairGrid_mem.mpr ⟨hb0, hf0⟩
    have hval : (List.countP ((fun q => decide (q = (b0, f0))) ∘
          fun r => ((r.barcode, r.feature) : String × String)) ∘
          fun p : String × String => cellRows (mtx.filter fun r =>
            decide (r.feature ∈ kf) && decide (r.barcode ∈ barcodes)) p.1 p.2) ((b0, f0))
        = (mtx.filter fun r => decide (r.barcode = b0) && decide (r.feature = f0)).length := by
      show List.countP _ (cellRows _ b0 f0) = _
      rw [hcell]
      refine List.countP_eq_length.mpr ?_
      intro r hr
      have := List.of_mem_filter hr
      simp only [Bool.and_eq_true, decide_eq_true_eq] at this
      simp [Function.comp, this.1, this.2]
    calc 2 ≤ (mtx.filter fun r =>
          decide (r.barcode = b0) && decide (r.feature = f0)).length := hdup
      _ = _ := hval.symm
      _ ≤ _ := List.single_le_sum (fun b _ => Nat.zero_le b) _
          (List.mem_map_of_mem _ hmem)
  have hnotnd := not_nodup_of_two_le_countP hcount
    (fun x y hx hy => by
      rw [decide_eq_true_eq] at hx hy
      rw [hx, hy])
  simp only [mm_to_wide, hcond, if_true]
  rw [if_neg hnotnd]

theorem mm_to_wide_duplicate_fails_witness :
    _validate_mm [⟨"F2", "b2", 3⟩, ⟨"F2", "b2", 4⟩] ["F2"] ["b2"] = true
      ∧ mm_to_wide [⟨"F2", "b2", 3⟩, ⟨"F2", "b2", 4⟩] ["F2"] ["b2"] ["F2"] ["b2"] = none :=
  ⟨by decide, mm_to_wide_duplicate_fails _ _ _ _ _ "F2" "b2" (by decide) (by decide)
    (by decide) (by decide) (by decide) (by decide)⟩

/-- Claim C5 (corrected): for a valid triple, keep lists that are
duplicate-free subsets of the full lists, and a table in which no kept
(feature, barcode) pair occurs in more than one record, `mm_to_wide`
produces exactly one row for every (barcode, feature) cell of the grid
keepBarcodes × keepFeatures, whose count is the sum of the counts of the
matching records — the single matching record's count, or 0 when none
matches.  Counts stay natural numbers (the integer dtype of the input), with
no floating-point promotion.  The no-duplicate hypothesis is forced by
`densify_duplicate_pair_cex`; a duplicated kept pair makes the final pivot
raise instead. -/
theorem mm_to_wide_dense (mtx : List Row) (features barcodes kf kb : List String)
    (hv : _validate_mm mtx features barcodes = true)
    (hkf : ∀ f ∈ kf, f ∈ features) (hkb : ∀ b ∈ kb, b ∈ barcodes)
    (hnf : kf.Nodup) (hnb : kb.Nodup)
    (huniq : ∀ b ∈ kb, ∀ f ∈ kf, (mtx.filter fun r =>
      decide (r.barcode = b) && decide (r.feature = f)).length ≤ 1) :
    mm_to_wide mtx features barcodes kf kb
        = some ((pairGrid kb kf).map fun p =>
            ⟨p.2, p.1, ((mtx.filter fun r =>
              decide (r.barcode = p.1) && decide (r.feature = p.2)).map Row.count).sum⟩)
      ∧ (pairGrid kb kf).Nodup
      ∧ (∀ p : String × String, p ∈ pairGrid kb kf ↔ p.1 ∈ kb ∧ p.2 ∈ kf) := by
  have hgridnd := pairGrid_nodup hnb hnf
  refine ⟨?_, hgridnd, fun p => pairGrid_mem⟩
  have hcond : (_validate_mm mtx features barcodes
      && kf.all (fun f => decide (f ∈ features))
      && kb.all (fun b => decide (b ∈ barcodes))) = true := by
    simp only [Bool.and_eq_true, List.all_eq_true, decide_eq_true_eq]
    exact ⟨⟨hv, hkf⟩, hkb⟩
  have hcell : ∀ p ∈ pairGrid kb kf,
      cellRows (mtx.filter fun r =>
          decide (r.feature ∈ kf) && decide (r.barcode ∈ barcodes)) p.1 p.2
        = [⟨p.2, p.1, ((mtx.filter fun r =>
            decide (r.barcode = p.1) && decide (r.feature = p.2)).map Row.count).sum⟩] := by
    intro p hp
    obtain ⟨hpb, hpf⟩ := pairGrid_mem.mp hp
    have hff := filter_keep_pair hv p.1 hpf
    rw [cellRows, hff]
    rcases hm : mtx.filter (fun r =>
        decide (r.barcode = p.1) && decide (r.feature = p.2)) with _ | ⟨r, rest⟩
    · rw [hm]; rfl
    · have hlen := huniq p.1 hpb p.2 hpf
      rw [hm] at hlen
      have hrest : rest = [] := by
        cases rest with
        | nil => rfl
        | cons a b => simp at hlen
      subst hrest
      have hrpred := List.of_mem_filter (p := fun r =>
        decide (r.barcode = p.1) && decide (r.feature = p.2)) (a := r)
        (by rw [hm]; exact List.mem_cons_self _ _)
      simp only [Bool.and_eq_true, decide_eq_true_eq] at hrpred
      rcases r with ⟨rf, rb, rc⟩
      obtain ⟨h1, h2⟩ := hrpred
      simp only at h1 h2
      subst h1
      subst h2
      rw [hm]; rfl
  have hjoined : ((pairGrid kb kf).map fun p =>
      cellRows (mtx.filter fun r =>
        decide (r.feature ∈ kf) && decide (r.barcode ∈ barcodes)) p.1 p.2).flatten
      = (pairGrid kb kf).map fun p =>
          (⟨p.2, p.1, ((mtx.filter fun r =>
            decide (r.barcode = p.1) && decide (r.feature = p.2)).map Row.count).sum⟩ : Row) := by
    rw [List.map_congr_left hcell]
    exact flatten_map_singleton _ _
  have hpairs : (((pairGrid kb kf).map fun p =>
      (⟨p.2, p.1, ((mtx.filter fun r =>
        decide (r.barcode = p.1) && decide (r.feature = p.2)).map Row.count).sum⟩ : Row)).map
      fun r => ((r.barcode, r.feature) : String × String)) = pairGrid kb kf := by
    rw [List.map_map]
    have h1 : pairGrid kb kf = (pairGrid kb kf).map id := (List.map_id _).symm
    rw [show ((fun r : Row => ((r.barcode, r.feature) : String × String)) ∘ fun p =>
      (⟨p.2, p.1, ((mtx.filter fun r =>
        decide (r.barcode = p.1) && decide (r.feature = p.2)).map Row.count).sum⟩ : Row))
      = fun p : String × String => (p.1, p.2) from rfl]
    refine Eq.trans (List.map_congr_left ?_) (List.map_id _)
    intro p _
    exact Prod.mk.eta
  simp only [mm_to_wide, hcond, if_true]
  rw [hjoined, hpairs, if_pos hgridnd]

theorem mm_to_wide_dense_witness :
    mm_to_wide [⟨"F1", "b1", 5⟩] ["F1", "F2"] ["b1", "b2"] ["F1", "F2"] ["b1", "b2"]
      = some [⟨"F1", "b1", 5⟩, ⟨"F2", "b1", 0⟩, ⟨"F1", "b2", 0⟩, ⟨"F2", "b2", 0⟩] :=
  ((mm_to_wide_dense [⟨"F1", "b1", 5⟩] ["F1", "F2"] ["b1", "b2"] ["F1", "F2"] ["b1", "b2"]
    (by decide) (by decide) (by decide) (by decide) (by decide) (by decide)).1).trans (by decide)

/-- Claim C5 counterexample: the valid triple whose table repeats the pair
(F1, b1) in two records, with both keep lists equal to the full lists,
makes `mm_to_wide` fail (the pivot rejects the duplicated index pair)
instead of producing the dense table the claim describes. -/
theorem densify_duplicate_pair_cex :
    _validate_mm [⟨"F1", "b1", 1⟩, ⟨"F1", "b1", 2⟩] ["F1"] ["b1"] = true
      ∧ mm_to_wide [⟨"F1", "b1", 1⟩, ⟨"F1", "b1", 2⟩] ["F1"] ["b1"] ["F1"] ["b1"] = none := by
  decide

theorem groupSum_pairs (recs : List Row) :
    (groupSum recs).map (fun r => ((r.barcode, r.feature) : String × String))
      = uniqueFirst (recs.map fun r => ((r.barcode, r.feature) : String × String)) := by
  rw [groupSum, List.map_map]
  refine Eq.trans (List.map_congr_left ?_) (List.map_id _)
  intro p _
  exact Prod.mk.eta

theorem groupSum_mem {recs : List Row} {r' : Row} (h : r' ∈ groupSum recs) :
    ∃ r ∈ recs, r'.barcode = r.barcode ∧ r'.feature = r.feature := by
  rw [groupSum] at h
  obtain ⟨p, hp, rfl⟩ := List.mem_map.mp h
  have hp' := mem_uniqueFirst.mp hp
  obtain ⟨r, hr, heq⟩ := List.mem_map.mp hp'
  exact ⟨r, hr, by rw [← heq], by rw [← heq]⟩

theorem groupSum_count {recs : List Row} {r' : Row} (h : r' ∈ groupSum recs) :
    r'.count = ((recs.filter fun r =>
      decide (r.barcode = r'.barcode) && decide (r.feature = r'.feature)).map Row.count).sum := by
  rw [groupSum] at h
  obtain ⟨p, hp, rfl⟩ := List.mem_map.mp h
  rfl

theorem groupSum_pair_mem (recs : List Row) (b f : String) :
    (((b, f) : String × String) ∈ recs.map fun r => ((r.barcode, r.feature) : String × String))
      ↔ (((b, f) : String × String) ∈ (groupSum recs).map
          fun r => ((r.barcode, r.feature) : String × String)) := by
  rw [groupSum_pairs, mem_uniqueFirst]

/-- Claim C4: on a valid triple and a remapping covering every feature,
`remap_features` returns the table obtained by substituting every record's
feature through the remapping and then summing counts grouped by
(barcode, new feature) — so each pair appears at most once (second
conjunct), with counts the grouped sums (third conjunct) and exactly the
pairs of the substituted table present (fourth conjunct) — together with the
image of the old feature list in first-occurrence order with duplicates
collapsed, and the unchanged barcode list. -/
theorem remap_features_grouped_sum (df : List Row) (features barcodes : List String)
    (mapping : List (String × String))
    (hv : _validate_mm df features barcodes = true)
    (hc : ∀ f ∈ features, (List.lookup f mapping).isSome = true) :
    remap_features df features barcodes mapping
        = some (groupSum (df.map (mapRowFeature mapping)),
            uniqueFirst (features.map fun f => (List.lookup f mapping).getD f), barcodes)
      ∧ ((groupSum (df.map (mapRowFeature mapping))).map fun r =>
          ((r.barcode, r.feature) : String × String)).Nodup
      ∧ (∀ r' ∈ groupSum (df.map (mapRowFeature mapping)),
          r'.count = (((df.map (mapRowFeature mapping)).filter fun r =>
            decide (r.barcode = r'.barcode) && decide (r.feature = r'.feature)).map
              Row.count).sum)
      ∧ (∀ b f : String,
          (((b, f) : String × String) ∈ (df.map (mapRowFeature mapping)).map
            fun r => ((r.barcode, r.feature) : String × String))
          ↔ (((b, f) : String × String) ∈ (groupSum (df.map (mapRowFeature mapping))).map
            fun r => ((r.barcode, r.feature) : String × String))) := by
  obtain ⟨hfe, hfnd, hbe, hbnd, hfmem, hbmem⟩ := validate_iff.mp hv
  have hguard : (_validate_mm df features barcodes
      && features.all fun f => (List.lookup f mapping).isSome) = true := by
    simp only [Bool.and_eq_true, List.all_eq_true]
    exact ⟨hv, hc⟩
  have hvalid2 : _validate_mm (groupSum (df.map (mapRowFeature mapping)))
      (uniqueFirst (features.map fun f => (List.lookup f mapping).getD f)) barcodes = true := by
    refine validate_iff.mpr ⟨?_, nodup_uniqueFirst, hbe, hbnd, ?_, ?_⟩
    · intro h
      exact hfe (List.map_eq_nil_iff.mp (uniqueFirst_eq_nil_iff.mp h))
    · intro r' hr'
      obtain ⟨rm, hrm, hb', hf'⟩ := groupSum_mem hr'
      obtain ⟨r0, hr0, rfl⟩ := List.mem_map.mp hrm
      rw [hf']
      exact mem_uniqueFirst.mpr (List.mem_map_of_mem _ (hfmem r0 hr0))
    · intro r' hr'
      obtain ⟨rm, hrm, hb', hf'⟩ := groupSum_mem hr'
      obtain ⟨r0, hr0, rfl⟩ := List.mem_map.mp hrm
      rw [hb']
      exact hbmem r0 hr0
  refine ⟨?_, ?_, ?_, ?_⟩
  · simp only [remap_features, hguard, if_true, hvalid2]
  · rw [groupSum_pairs]
    exact nodup_uniqueFirst
  · intro r' hr'
    exact groupSum_count hr'
  · intro b f
    exact groupSum_pair_mem _ b f

theorem remap_features_grouped_sum_witness :
    remap_features [⟨"A", "x", 3⟩, ⟨"A", "x", 2⟩, ⟨"B", "x", 5⟩] ["A", "B"] ["x"]
        [("A", "C"), ("B", "C")] = some ([⟨"C", "x", 10⟩], ["C"], ["x"]) :=
  ((remap_features_grouped_sum [⟨"A", "x", 3⟩, ⟨"A", "x", 2⟩, ⟨"B", "x", 5⟩] ["A", "B"] ["x"]
    [("A", "C"), ("B", "C")] (by decide) (by decide)).1).trans (by decide)

theorem sameSet_iff {a b : List String} : sameSet a b = true ↔ ∀ y, y ∈ b ↔ y ∈ a := by
  rw [sameSet, Bool.and_eq_true, List.all_eq_true, List.all_eq_true]
  simp only [decide_eq_true_eq]
  constructor
  · rintro ⟨h1, h2⟩ y
    exact ⟨fun hy => h2 y hy, fun hy => h1 y hy⟩
  · intro h
    exact ⟨fun y hy => (h y).mpr hy, fun y hy => (h y).mp hy⟩

theorem mm_merge_cons_two (m1 m2 : List Row) (ms : List (List Row))
    (f1 f2 : List String) (fs : List (List String))
    (b1 b2 : List String) (bs : List (List String))
    (hl1 : ms.length = fs.length) (hl2 : ms.length = bs.length) :
    mm_merge (m1 :: m2 :: ms) (f1 :: f2 :: fs) (b1 :: b2 :: bs)
      = if ((f2 :: fs).all fun fi => sameSet f1 fi)
          && (distinctCount ((b1 :: b2 :: bs).flatten)
              == ((b1 :: b2 :: bs).map List.length).sum) then
          some ((m1 :: m2 :: ms).flatten, f1, (b1 :: b2 :: bs).flatten)
        else none := by
  have hguard : (m1 :: m2 :: ms).length = (f1 :: f2 :: fs).length
      ∧ (m1 :: m2 :: ms).length = (b1 :: b2 :: bs).length
      ∧ 0 < (m1 :: m2 :: ms).length := by
    refine ⟨?_, ?_, ?_⟩ <;> simp only [List.length_cons] <;> omega
  rw [mm_merge, if_pos hguard]
  simp

/-- Claim C6 (corrected): for two or more input triples, `mm_merge` fails
whenever some barcode identifier appears in the barcode lists of more than
one input and whenever some feature list is not set-equal to the first; it
returns the concatenation of all tables in input order, the first feature
list and the concatenation of the barcode lists exactly when the feature
lists are set-equal and the concatenated barcode lists have no duplicate
(pairwise disjoint inputs each free of internal duplicates).  A barcode list
with an internal duplicate also makes it fail even though no identifier
appears in two inputs — see `merge_internal_duplicate_cex`, which refutes
the claim as stated. -/
theorem mm_merge_spec (m1 m2 : List Row) (ms : List (List Row))
    (f1 f2 : List String) (fs : List (List String))
    (b1 b2 : List String) (bs : List (List String))
    (hl1 : ms.length = fs.length) (hl2 : ms.length = bs.length) :
    (∀ x : String, 2 ≤ ((b1 :: b2 :: bs).countP fun li => decide (x ∈ li)) →
        mm_merge (m1 :: m2 :: ms) (f1 :: f2 :: fs) (b1 :: b2 :: bs) = none)
      ∧ ((∃ fi ∈ f2 :: fs, ¬ (∀ y : String, y ∈ fi ↔ y ∈ f1)) →
          mm_merge (m1 :: m2 :: ms) (f1 :: f2 :: fs) (b1 :: b2 :: bs) = none)
      ∧ ((∀ fi ∈ f2 :: fs, ∀ y : String, y ∈ fi ↔ y ∈ f1) →
          ((b1 :: b2 :: bs).flatten).Nodup →
          mm_merge (m1 :: m2 :: ms) (f1 :: f2 :: fs) (b1 :: b2 :: bs)
            = some ((m1 :: m2 :: ms).flatten, f1, (b1 :: b2 :: bs).flatten)) := by
  have heq := mm_merge_cons_two m1 m2 ms f1 f2 fs b1 b2 bs hl1 hl2
  refine ⟨?_, ?_, ?_⟩
  · intro x hx
    have hnotnd : ¬ ((b1 :: b2 :: bs).flatten).Nodup := by
      obtain ⟨u, li, v, lj, w, hdec, hx1, hx2⟩ := exists_two_of_two_le_countP hx
      rw [decide_eq_true_eq] at hx1 hx2
      rw [hdec]
      intro hnd
      rw [List.flatten_append, List.flatten_cons] at hnd
      have hdisj := (List.nodup_append.mp hnd).2.2
      exact hdisj
        (List.mem_flatten.mpr ⟨li, List.mem_append_right _ (List.mem_cons_self _ _), hx1⟩)
        (List.mem_append_left _ hx2)
    have hlt : distinctCount ((b1 :: b2 :: bs).flatten)
        < ((b1 :: b2 :: bs).map List.length).sum := by
      rw [← List.length_flatten]
      exact length_uniqueFirstAux_lt_of_dup hnotnd
    have hcond : ¬ ((((f2 :: fs).all fun fi => sameSet f1 fi)
        && (distinctCount ((b1 :: b2 :: bs).flatten)
            == ((b1 :: b2 :: bs).map List.length).sum)) = true) := by
      intro hc
      rw [Bool.and_eq_true, beq_iff_eq] at hc
      omega
    rw [heq, if_neg hcond]
  · rintro ⟨fi, hfi, hne⟩
    have hfalse : ((f2 :: fs).all fun x => sameSet f1 x) = false := by
      cases hall : ((f2 :: fs).all fun x => sameSet f1 x) with
      | false => rfl
      | true => exact absurd (sameSet_iff.mp (List.all_eq_true.mp hall fi hfi)) hne
    have hcond : ¬ ((((f2 :: fs).all fun x => sameSet f1 x)
        && (distinctCount ((b1 :: b2 :: bs).flatten)
            == ((b1 :: b2 :: bs).map List.length).sum)) = true) := by
      rw [hfalse]
      simp
    rw [heq, if_neg hcond]
  · intro hset hnd
    have htrue1 : ((f2 :: fs).all fun x => sameSet f1 x) = true :=
      List.all_eq_true.mpr fun fi hfi => sameSet_iff.mpr (hset fi hfi)
    have htrue2 : (distinctCount ((b1 :: b2 :: bs).flatten)
        == ((b1 :: b2 :: bs).map List.length).sum) = true := by
      rw [beq_iff_eq, distinctCount, ← List.length_flatten]
      exact length_uniqueFirst_eq_iff.mpr hnd
    rw [heq, htrue1, htrue2]
    simp

theorem mm_merge_spec_witness :
    mm_merge [[⟨"F1", "b1", 1⟩], [⟨"F2", "b2", 2⟩]] [["F1", "F2"], ["F2", "F1"]] [["b1"], ["b2"]]
        = some ([⟨"F1", "b1", 1⟩, ⟨"F2", "b2", 2⟩], ["F1", "F2"], ["b1", "b2"])
      ∧ mm_merge [[], []] [["F3"], ["F3"]] [["b3"], ["b3"]] = none := by
  constructor
  · refine Eq.trans ((mm_merge_spec [⟨"F1", "b1", 1⟩] [⟨"F2", "b2", 2⟩] [] ["F1", "F2"]
      ["F2", "F1"] [] ["b1"] ["b2"] [] rfl rfl).2.2 ?_ (by decide)) (by decide)
    intro fi hfi y
    simp only [List.mem_cons, List.not_mem_nil, or_false] at hfi
    subst hfi
    simp only [List.mem_cons, List.not_mem_nil, or_false]
    tauto
  · exact (mm_merge_spec [] [] [] ["F3"] ["F3"] [] ["b3"] ["b3"] [] rfl rfl).1
      "b3" (by decide)

/-- Claim C6 counterexample: with barcode lists [["b","b"], ["c"]] no
barcode identifier appears in more than one input (each barcode of the
inputs occurs in exactly one input list) and the feature lists are
set-equal, so the claim as stated promises the concatenated result; but the
source compares the union size (2) with the summed sizes (3) and fails
because of the duplicate inside the first list. -/
theorem merge_internal_duplicate_cex :
    (∀ x ∈ ([["b", "b"], ["c"]] : List (List String)).flatten,
        (([["b", "b"], ["c"]] : List (List String)).countP fun li => decide (x ∈ li)) = 1)
      ∧ mm_merge [[], []] [["f"], ["f"]] [["b", "b"], ["c"]] = none := by
  decide

theorem lookup_bump (m : List (String × Nat)) (k q : String) (v : Nat) :
    List.lookup q (bump m k v)
      = if q = k then (List.lookup q m).map (· + v) else List.lookup q m := by
  induction m with
  | nil => simp [bump, List.lookup]
  | cons e rest ih =>
    obtain ⟨ke, ve⟩ := e
    rw [bump]
    by_cases h1 : ke = k
    · rw [if_pos h1]
      subst h1
      by_cases h2 : q = ke
      · subst h2
        simp [List.lookup]
      · have hbeq : (q == ke) = false := beq_eq_false_iff_ne.mpr h2
        simp [List.lookup, hbeq, h2]
    · rw [if_neg h1]
      by_cases h2 : q = ke
      · subst h2
        simp [List.lookup, h1]
      · have hbeq : (q == ke) = false := beq_eq_false_iff_ne.mpr h2
        simp [List.lookup, hbeq, ih]

theorem lookup_fold (sel : Row → String) (q : String) :
    ∀ (recs : List Row) (m0 : List (String × Nat)),
      List.lookup q (recs.foldl (fun acc r => bump acc (sel r) r.count) m0)
        = (List.lookup q m0).map
            (· + ((recs.filter fun r => decide (sel r = q)).map Row.count).sum) := by
  intro recs
  induction recs with
  | nil =>
    intro m0
    cases hl : List.lookup q m0 <;> simp [hl]
  | cons r rest ih =>
    intro m0
    rw [List.foldl_cons, ih (bump m0 (sel r) r.count), lookup_bump]
    by_cases h : sel r = q
    · rw [if_pos h.symm]
      cases hl : List.lookup q m0 <;> simp [hl, List.filter_cons, h, Nat.add_assoc]
    · rw [if_neg fun hc => h hc.symm]
      simp [List.filter_cons, h]

theorem lookup_map_zero {q : String} : ∀ {l : List String}, q ∈ l →
    List.lookup q (l.map fun x => (x, (0 : Nat))) = some 0 := by
  intro l
  induction l with
  | nil => intro h; cases h
  | cons x xs ih =>
    intro h
    by_cases hq : q = x
    · subst hq
      simp [List.lookup]
    · rcases List.mem_cons.mp h with h' | h'
      · exact absurd h' hq
      · have hbeq : (q == x) = false := beq_eq_false_iff_ne.mpr hq
        simp [List.lookup, hbeq, ih h']

/-- Claim C8: for a well-formed matrix file — every data line parses as
`feature_idx barcode_idx count` and its 1-based indices resolve through the
features/barcodes files, captured by the parsing and resolution
hypotheses — `get_total_counts_mm` returns two mappings in which every
identifier of the features (resp. barcodes) file appears, bound to the sum
of the counts of the records that mention it, which is 0 for an identifier
no record mentions. -/
theorem get_total_counts_spec (matrixLines featureLines barcodeLines : List String)
    (entries : List (Nat × Nat × Nat)) (recs : List Row)
    (hfl : featureLines ≠ []) (hbl : barcodeLines ≠ [])
    (hparse : mapAll parseEntryLine
      ((matrixLines.filter fun l => !startsWithPercent l).drop 1) = some entries)
    (hres : mapAll (resolveEntry featureLines barcodeLines) entries = some recs) :
    get_total_counts_mm matrixLines featureLines barcodeLines
        = some (recs.foldl (fun acc r => bump acc r.feature r.count) (initTotals featureLines),
                recs.foldl (fun acc r => bump acc r.barcode r.count) (initTotals barcodeLines))
      ∧ (∀ id ∈ featureLines,
          List.lookup id (recs.foldl (fun acc r => bump acc r.feature r.count)
              (initTotals featureLines))
            = some ((recs.filter fun r => decide (r.feature = id)).map Row.count).sum)
      ∧ (∀ id ∈ barcodeLines,
          List.lookup id (recs.foldl (fun acc r => bump acc r.barcode r.count)
              (initTotals barcodeLines))
            = some ((recs.filter fun r => decide (r.barcode = id)).map Row.count).sum) := by
  refine ⟨?_, ?_, ?_⟩
  · obtain ⟨lf, lfs, rfl⟩ : ∃ lf lfs, featureLines = lf :: lfs := by
      cases featureLines with
      | nil => exact absurd rfl hfl
      | cons a b => exact ⟨a, b, rfl⟩
    obtain ⟨lb, lbs, rfl⟩ : ∃ lb lbs, barcodeLines = lb :: lbs := by
      cases barcodeLines with
      | nil => exact absurd rfl hbl
      | cons a b => exact ⟨a, b, rfl⟩
    rw [get_total_counts_mm, readIdLines, Option.some_bind, readIdLines, Option.some_bind,
      hparse, Option.some_bind, hres, Option.some_bind]
  · intro id hid
    rw [lookup_fold Row.feature id recs (initTotals featureLines), initTotals,
      lookup_map_zero (mem_uniqueFirst.mpr hid)]
    simp
  · intro id hid
    rw [lookup_fold Row.barcode id recs (initTotals barcodeLines), initTotals,
      lookup_map_zero (mem_uniqueFirst.mpr hid)]
    simp

theorem get_total_counts_spec_witness :
    get_total_counts_mm
        ["%%MatrixMarket matrix coordinate integer general", "%", "1 2 2", "1 1 3", "1 2 4"]
        ["F1"] ["b1", "b2"]
      = some ([("F1", 7)], [("b1", 3), ("b2", 4)]) :=
  ((get_total_counts_spec
    ["%%MatrixMarket matrix coordinate integer general", "%", "1 2 2", "1 1 3", "1 2 4"]
    ["F1"] ["b1", "b2"] [(1, 1, 3), (1, 2, 4)] [⟨"F1", "b1", 3⟩, ⟨"F1", "b2", 4⟩]
    (by decide) (by decide) (by decide) (by decide)).1).trans (by decide)

end Snutils
